import Mathlib

/-!
Shallow embedding of src/password_cracker.py.

Python generators are modelled as Lean lists (the candidate spaces the
claims exercise are finite); machine-level laziness is irrelevant to the
stated properties.  Fallible operations are modelled with Except String,
the error value standing for a raised Python exception.  A Python string
is a Lean String, a Python character a Lean Char, truthiness of optional
arguments is made explicit.
-/

namespace PasswordCracker

/-! ## Character-set constants (string module constants used by the source) -/

def asciiLowercase : List Char := "abcdefghijklmnopqrstuvwxyz".data

def asciiUppercase : List Char := "ABCDEFGHIJKLMNOPQRSTUVWXYZ".data

def asciiDigits : List Char := "0123456789".data

/-- Python string.ascii_letters is lowercase followed by uppercase. -/
def asciiLetters : List Char := asciiLowercase ++ asciiUppercase

/-- DEFAULT_CHARSET = string.ascii_letters + string.digits. -/
def DEFAULT_CHARSET : List Char := asciiLetters ++ asciiDigits

/-- PATTERN_CHARSETS dictionary: symbolic pattern token to its character set;
unknown tokens get none and are treated as literals by the expander. -/
def PATTERN_CHARSETS (c : Char) : Option (List Char) :=
  if c = 'A' then some asciiUppercase
  else if c = 'a' then some asciiLowercase
  else if c = '1' then some asciiDigits
  else if c = '0' then some asciiDigits
  else if c = '#' then some asciiDigits
  else if c = '?' then some asciiLetters
  else if c = '*' then some DEFAULT_CHARSET
  else none

/-- TARGET_TYPE_MAP: file extension (lower case, with dot) to target type tag. -/
def TARGET_TYPE_MAP : List (String × String) :=
  [(".pdf", "pdf"), (".zip", "zip"), (".rar", "rar"), (".7z", "7z"), (".iso", "iso")]

/-- Python str.lower on an ASCII string, modelled character by character. -/
def lowerStr (s : String) : String := String.mk (s.data.map Char.toLower)

/-- determine_target_type: the Path argument is represented by its extension
string (Python path.suffix); a forced type wins, otherwise the lowered
extension is looked up in TARGET_TYPE_MAP with default "pdf". -/
def determine_target_type (suffix : String) (forced : Option String) : String :=
  match forced with
  | some f => f
  | none => (TARGET_TYPE_MAP.lookup (lowerStr suffix)).getD "pdf"

/-! ## Cartesian product over a list of pools (itertools.product) -/

/-- Ordered Cartesian product of a list of pools, leftmost pool most
significant, exactly the order of itertools.product. -/
def listProd {α : Type} : List (List α) → List (List α)
  | [] => [[]]
  | pool :: rest => (pool.map fun c => (listProd rest).map (c :: ·)).flatten

/-! ## Pattern expansion (generate_from_pattern) -/

/-- Resolution of one pattern character: a known token yields its charset
(reversed unless order is "asc"), an unknown character is a literal. -/
def resolveToken (order : String) (c : Char) : List Char :=
  match PATTERN_CHARSETS c with
  | none => [c]
  | some cs => if order = "asc" then cs else cs.reverse

def patternPools (pattern : String) (order : String) : List (List Char) :=
  pattern.data.map (resolveToken order)

def generate_from_pattern (pattern : String) (order : String) : List String :=
  (listProd (patternPools pattern order)).map String.mk

/-! ## Fixed-length brute force (generate_by_length) -/

def generate_by_length (length : Nat) (charset : List Char) : List String :=
  (listProd (List.replicate length charset)).map String.mk

/-- Python itertools.product raises ValueError when the repeat argument is
negative, so generate_by_length raises on a negative length; the length
argument of the script is an Int.  The error message is the one raised by
itertools. -/
def generate_by_length_checked (length : Int) (charset : List Char) :
    Except String (List String) :=
  if length < 0 then .error "repeat argument cannot be negative"
  else .ok (generate_by_length length.toNat charset)

/-! ## Seed variants (candidate_variants) -/

/-- substitutions table of candidate_variants. -/
def substitutions (c : Char) : List Char :=
  if c = '0' then "oO".data
  else if c = '1' then "lLI!".data
  else if c = '3' then "eE".data
  else if c = '5' then "sS".data
  else if c = '7' then "tT".data
  else if c = '8' then "B".data
  else []

/-- Python str.isalpha on one character.  Python isalpha is Unicode wide;
this model is exact on every ASCII character and on the sharp s letter,
the one non-ASCII alphabetic character the theorems below evaluate it
on. -/
def pyIsAlpha (c : Char) : Bool := c.isAlpha || c = 'ß'

/-- Python str.isdigit on one character.  Python isdigit is Unicode wide
and also accepts non-decimal digit characters; this model is exact on
every ASCII character and on the superscript two, the one non-ASCII digit
character the theorems below evaluate it on. -/
def pyIsDigit (c : Char) : Bool := c.isDigit || c = '²'

/-- Python str.swapcase of a one-character string.  The result is a
string, not a character: the sharp s upper-cases to the two-character
string SS.  Exact on every ASCII character and on the sharp s. -/
def pySwapcase (c : Char) : List Char :=
  if c = 'ß' then "SS".data
  else if c.isLower then [c.toUpper]
  else if c.isUpper then [c.toLower]
  else [c]

/-- Python int(char) as called on a character satisfying isdigit: it
raises ValueError on digit characters that are not decimal digits, such
as the superscript two.  Exact on every ASCII digit and on the
superscript two. -/
def pyIntOfDigit (c : Char) : Except String Nat :=
  if c.isDigit then .ok (c.toNat - 48)
  else .error "invalid literal for int with base 10"

def digitChar (n : Nat) : Char := Char.ofNat (48 + n)

/-- Python string comparison (lexicographic by code point) on strings
represented as character lists. -/
def ltStr : List Char → List Char → Bool
  | [], [] => false
  | [], _ :: _ => true
  | _ :: _, [] => false
  | c :: cs, d :: ds => if c < d then true else if d < c then false else ltStr cs ds

/-- Ordered duplicate-free insertion of a string into a sorted string
list, building sorted(set(..)) of Python string options. -/
def insertStr (s : List Char) : List (List Char) → List (List Char)
  | [] => [s]
  | t :: ts =>
    if ltStr s t then s :: t :: ts
    else if s = t then t :: ts
    else t :: insertStr s ts

/-- sorted(options) for a Python set of strings collected in a list. -/
def sortedSetStr (l : List (List Char)) : List (List Char) := l.foldr insertStr []

/-- Option pool for one seed character, exactly as the source builds it: a
sorted set of strings holding the character itself, its swapcase if
alphabetic (possibly longer than one character), the two adjacent decimal
digits if a digit (int raising ValueError on a non-decimal digit
character), and the fixed lookalike substitutions. -/
def optionsFor (c : Char) : Except String (List (List Char)) := do
  let digitOpts ←
    if pyIsDigit c then
      (pyIntOfDigit c).map fun d =>
        [[digitChar ((d + 9) % 10)], [digitChar ((d + 1) % 10)]]
    else .ok []
  pure (sortedSetStr ([[c]]
    ++ (if pyIsAlpha c then [pySwapcase c] else [])
    ++ digitOpts
    ++ (substitutions c).map fun r => [r]))

/-- The pools list of candidate_variants, raising at the first character
whose option set cannot be built. -/
def buildPools : List Char → Except String (List (List (List Char)))
  | [] => .ok []
  | c :: cs => do
    let p ← optionsFor c
    let ps ← buildPools cs
    pure (p :: ps)

/-- candidate_variants: the Cartesian product of the per-character option
pools, each combination joined into one string; pulling the generator can
raise the ValueError of int on exotic digit characters. -/
def candidate_variants (seed : String) : Except String (List String) :=
  (buildPools seed.data).map fun pools =>
    (listProd pools).map fun combo => String.mk combo.flatten

/-! ## Per-source cap (limited) and wordlist reading -/

/-- limited: pass everything through when no limit is given, otherwise stop
after limit candidates (a non-positive limit yields nothing, as in the
Python loop). -/
def limited (gen : List String) (limit : Option Int) : List String :=
  match limit with
  | none => gen
  | some m => gen.take m.toNat

/-- Python str.strip, modelled at the character-list level: drop whitespace
from both ends. -/
def strip (s : String) : String :=
  String.mk (((s.data.dropWhile Char.isWhitespace).reverse.dropWhile Char.isWhitespace).reverse)

/-- read_wordlist: the file is represented by its list of lines; each line
is stripped and blank results are skipped. -/
def read_wordlist (lines : List String) : List String :=
  lines.filterMap fun line =>
    let word := strip line
    if word = "" then none else some word

/-! ## RAR tester (try_rar_password) -/

/-- Outcome of opening and reading the RAR archive with a given password,
abstracting the rarfile library calls. -/
inductive RarOutcome where
  | success
  | badRar
  | wrongPassword
  | crcError
  | cannotExec
  | otherError
deriving DecidableEq

/-- try_rar_password: raises (error) when the rarfile module is absent;
wrong-password style library errors map to false; RarCannotExec is
re-raised as a RuntimeError; any other exception maps to false. -/
def try_rar_password (rarfileAvailable : Bool) (archive : String → RarOutcome)
    (password : String) : Except String Bool :=
  if !rarfileAvailable then .error "rarfile dependency missing. Install via pip."
  else
    match archive password with
    | .success => .ok true
    | .badRar => .ok false
    | .wrongPassword => .ok false
    | .crcError => .ok false
    | .cannotExec => .error "rarfile requires unrar or rar command to be installed."
    | .otherError => .ok false

/-! ## Configuration (argparse namespace) and stream construction -/

/-- The argparse namespace fields consumed by crack_target.  wordlist is
none when the option is absent or the file does not exist, otherwise the
list of lines of the file. -/
structure Args where
  seed : Option String
  pattern : Option String
  patternPre : String
  patternSuf : String
  patternOrder : String
  length : Option Int
  charset : List Char
  wordlist : Option (List String)
  maxCandidates : Int
  seedVariants : Int

/-- Python truthiness of an optional string (None and the empty string are
falsy). -/
def strTruthy : Option String → Bool
  | none => false
  | some s => s != ""

/-- Python truthiness of an optional integer (None and 0 are falsy). -/
def intTruthy : Option Int → Bool
  | none => false
  | some n => n != 0

/-- pattern_spec: built when any of pattern, prefix literal, suffix literal
is truthy. -/
def patternSpec (a : Args) : Option String :=
  if strTruthy a.pattern || a.patternPre != "" || a.patternSuf != "" then
    some (a.patternPre ++ a.pattern.getD "" ++ a.patternSuf)
  else none

/-- Truthiness of pattern_spec as tested by the source (if pattern_spec:). -/
def patternActive (a : Args) : Bool :=
  match patternSpec a with
  | some s => s != ""
  | none => false

/-- candidate_streams list of crack_target, in source order: capped seed
variants, then capped pattern expansion, else capped length brute force,
then the uncapped wordlist.  Each entry is Except-valued because pulling
the length stream can raise (negative length). -/
def buildStreams (a : Args) : List (Except String (List String)) :=
  (if strTruthy a.seed then
    [(candidate_variants (a.seed.getD "")).map fun vs => limited vs (some a.seedVariants)]
  else [])
  ++ (if patternActive a then
    [.ok (limited (generate_from_pattern ((patternSpec a).getD "") a.patternOrder)
      (some a.maxCandidates))]
  else if intTruthy a.length then
    [(generate_by_length_checked (a.length.getD 0) a.charset).map
      (fun g => limited g (some a.maxCandidates))]
  else [])
  ++ (match a.wordlist with
  | some lines => [.ok (read_wordlist lines)]
  | none => [])

/-! ## The search loop of crack_target -/

/-- Inner loop over one candidate stream: threads the seen set, records the
candidates handed to the tester, and stops early on a positive test or a
raised error.  Returns (tested candidates, final seen set, early result). -/
def crackStream (test : String → Except String Bool) :
    List String → List String → List String × List String × Option (Except String (Option String))
  | seen, [] => ([], seen, none)
  | seen, p :: ps =>
    if p ∈ seen then crackStream test seen ps
    else
      match test p with
      | .error e => ([p], seen, some (.error e))
      | .ok true => ([p], seen, some (.ok (some p)))
      | .ok false =>
        let r := crackStream test (p :: seen) ps
        (p :: r.1, r.2.1, r.2.2)

/-- Outer loop over candidate_streams: pulling a stream that raises
propagates the error; otherwise the inner loop runs with the shared seen
set and the search continues into the next stream unless the inner loop
ended early. -/
def crackStreams (test : String → Except String Bool) :
    List String → List (Except String (List String)) → List String × Except String (Option String)
  | _, [] => ([], .ok none)
  | _, .error e :: _ => ([], .error e)
  | seen, .ok l :: rest =>
    match crackStream test seen l with
    | (tr, _, some res) => (tr, res)
    | (tr, seen2, none) =>
      let r := crackStreams test seen2 rest
      (tr ++ r.1, r.2)

/-- crack_target: run the merged deduplicated stream against the tester;
ok (some p) is the Found result, ok none the Exhausted result, error a
raised exception. -/
def crack_target (a : Args) (test : String → Except String Bool) :
    Except String (Option String) :=
  (crackStreams test [] (buildStreams a)).2

/-- The sequence of candidates actually handed to the tester by
crack_target, in order. -/
def testedCandidates (a : Args) (test : String → Except String Bool) : List String :=
  (crackStreams test [] (buildStreams a)).1

/-- A pure boolean tester lifted into the Except-valued tester type. -/
def liftTest (t : String → Bool) : String → Except String Bool :=
  fun p => .ok (t p)

/-- The candidate list carried by a stream entry, empty for an error. -/
def okStream : Except String (List String) → List String
  | .ok l => l
  | .error _ => []

/-- Whether a stream entry is error free. -/
def isOkStream : Except String (List String) → Bool
  | .ok _ => true
  | .error _ => false

/-- The merged candidate stream of a configuration, before deduplication. -/
def mergedCandidates (a : Args) : List String :=
  ((buildStreams a).map okStream).flatten

/-- Generic merge of capped sources in order, before deduplication,
mirroring the candidate_streams construction. -/
def mergeStreams (sources : List (List String × Option Int)) : List String :=
  (sources.map fun sc => limited sc.1 sc.2).flatten

/-- Token resolution the way the spec words the descending order: the
character set of every symbolic token is reversed, a literal token is left
unchanged.  Stated separately from resolveToken so the code path can be
compared against it. -/
def reverseSymbolic (c : Char) : List Char :=
  match PATTERN_CHARSETS c with
  | none => [c]
  | some cs => cs.reverse

/-- Configuration that requests only the fixed-length brute-force strategy. -/
def lengthOnlyArgs (len : Int) (cs : List Char) : Args :=
  ⟨none, none, "", "", "asc", some len, cs, none, 250000, 1000⟩

/-! ## Lemmas about the Cartesian product combinator -/

theorem length_listProd {α : Type} : ∀ pools : List (List α),
    (listProd pools).length = (pools.map List.length).prod
  | [] => rfl
  | pool :: rest => by
    simp only [listProd, List.length_flatten, List.map_map, Function.comp_def,
      List.length_map, List.map_cons, List.prod_cons, length_listProd rest]
    induction pool with
    | nil => simp
    | cons c pool ihp => simp [ihp, Nat.succ_mul, Nat.add_comm]

theorem length_of_mem_listProd {α : Type} : ∀ {pools : List (List α)} {l : List α},
    l ∈ listProd pools → l.length = pools.length := by
  intro pools
  induction pools with
  | nil => intro l hl; simp [listProd] at hl; simp [hl]
  | cons pool rest ih =>
    intro l hl
    simp only [listProd, List.mem_flatten, List.mem_map] at hl
    obtain ⟨blk, ⟨c, _, rfl⟩, hlb⟩ := hl
    obtain ⟨t, ht, rfl⟩ := List.mem_map.mp hlb
    simp [ih ht]

theorem mem_listProd_replicate {α : Type} {cs : List α} : ∀ {n : Nat} {l : List α},
    l ∈ listProd (List.replicate n cs) ↔ l.length = n ∧ ∀ c ∈ l, c ∈ cs := by
  intro n
  induction n with
  | zero =>
    intro l
    simp only [List.replicate, listProd, List.mem_singleton, List.length_eq_zero]
    constructor
    · rintro rfl; exact ⟨rfl, by simp⟩
    · rintro ⟨rfl, _⟩; rfl
  | succ n ih =>
    intro l
    simp only [List.replicate_succ, listProd, List.mem_flatten, List.mem_map]
    constructor
    · rintro ⟨blk, ⟨c, hc, rfl⟩, hlb⟩
      obtain ⟨t, ht, rfl⟩ := List.mem_map.mp hlb
      obtain ⟨hlen, hmem⟩ := ih.mp ht
      refine ⟨by simp [hlen], ?_⟩
      intro d hd
      rcases List.mem_cons.mp hd with rfl | hd
      · exact hc
      · exact hmem d hd
    · rintro ⟨hlen, hmem⟩
      match l with
      | [] => simp at hlen
      | c :: t =>
        refine ⟨(listProd (List.replicate n cs)).map (c :: ·),
          ⟨c, hmem c (List.mem_cons_self c t), rfl⟩, ?_⟩
        refine List.mem_map.mpr ⟨t, ih.mpr ⟨by simpa using hlen, ?_⟩, rfl⟩
        intro d hd
        exact hmem d (List.mem_cons_of_mem c hd)

theorem mem_listProd_of_forall2 {α : Type} : ∀ {l : List α} {pools : List (List α)},
    List.Forall₂ (fun x pool => x ∈ pool) l pools → l ∈ listProd pools := by
  intro l pools h
  induction h with
  | nil => simp [listProd]
  | cons hx _ ih =>
    simp only [listProd, List.mem_flatten, List.mem_map]
    exact ⟨_, ⟨_, hx, rfl⟩, List.mem_map.mpr ⟨_, ih, rfl⟩⟩

theorem forall2_of_mem_listProd {α : Type} : ∀ {pools : List (List α)} {l : List α},
    l ∈ listProd pools → List.Forall₂ (fun x pool => x ∈ pool) l pools := by
  intro pools
  induction pools with
  | nil =>
    intro l hl
    simp only [listProd, List.mem_singleton] at hl
    subst hl
    exact List.Forall₂.nil
  | cons pool rest ih =>
    intro l hl
    simp only [listProd, List.mem_flatten, List.mem_map] at hl
    obtain ⟨blk, ⟨c, hc, rfl⟩, hlb⟩ := hl
    obtain ⟨t, ht, rfl⟩ := List.mem_map.mp hlb
    exact List.Forall₂.cons hc (ih ht)

theorem nodup_listProd : ∀ {pools : List (List Char)},
    (∀ pool ∈ pools, pool.Nodup) → (listProd pools).Nodup := by
  intro pools
  induction pools with
  | nil => intro _; simp [listProd]
  | cons pool rest ih =>
    intro h
    have hpool : pool.Nodup := h pool (List.mem_cons_self pool rest)
    have hrest : (listProd rest).Nodup := ih fun l hl => h l (List.mem_cons_of_mem pool hl)
    simp only [listProd]
    rw [List.nodup_flatten]
    constructor
    · intro blk hblk
      obtain ⟨c, _, rfl⟩ := List.mem_map.mp hblk
      exact hrest.map List.cons_injective
    · rw [List.pairwise_map]
      refine hpool.imp ?_
      intro c d hcd l hl₁ hl₂
      obtain ⟨t₁, _, rfl⟩ := List.mem_map.mp hl₁
      obtain ⟨t₂, _, heq⟩ := List.mem_map.mp hl₂
      exact hcd (List.head_eq_of_cons_eq heq.symm)

theorem pairwise_listProd {r : Char → Char → Prop} : ∀ {pools : List (List Char)},
    (∀ pool ∈ pools, pool.Pairwise r) → (listProd pools).Pairwise (List.Lex r) := by
  intro pools
  induction pools with
  | nil => intro _; simp [listProd]
  | cons pool rest ih =>
    intro h
    have hpool : pool.Pairwise r := h pool (List.mem_cons_self pool rest)
    have hrest : (listProd rest).Pairwise (List.Lex r) :=
      ih fun l hl => h l (List.mem_cons_of_mem pool hl)
    simp only [listProd]
    rw [List.pairwise_flatten]
    constructor
    · intro blk hblk
      obtain ⟨c, _, rfl⟩ := List.mem_map.mp hblk
      rw [List.pairwise_map]
      exact hrest.imp fun hlex => List.Lex.cons hlex
    · rw [List.pairwise_map]
      refine hpool.imp ?_
      intro c d hcd l₁ hl₁ l₂ hl₂
      obtain ⟨t₁, _, rfl⟩ := List.mem_map.mp hl₁
      obtain ⟨t₂, _, rfl⟩ := List.mem_map.mp hl₂
      exact List.Lex.rel hcd

/-! ## String helpers -/

theorem stringMk_data (s : String) : String.mk s.data = s := rfl

theorem stringMk_injective : Function.Injective String.mk :=
  fun _ _ h => congrArg String.data h

theorem length_stringMk (l : List Char) : (String.mk l).length = l.length := rfl

/-! ## Lemmas about the sorted option pools of candidate_variants -/

theorem mem_insertStr {x s : List Char} : ∀ {l : List (List Char)},
    x ∈ insertStr s l ↔ x = s ∨ x ∈ l := by
  intro l
  induction l with
  | nil => simp [insertStr]
  | cons t ts ih =>
    simp only [insertStr]
    split_ifs with h1 h2
    · simp [List.mem_cons]
    · subst h2
      simp only [List.mem_cons]
      tauto
    · simp only [List.mem_cons, ih]
      tauto

theorem mem_sortedSetStr {x : List Char} : ∀ {l : List (List Char)},
    x ∈ sortedSetStr l ↔ x ∈ l := by
  intro l
  induction l with
  | nil => simp [sortedSetStr]
  | cons s ss ih =>
    show x ∈ insertStr s (sortedSetStr ss) ↔ x ∈ s :: ss
    rw [mem_insertStr, ih, List.mem_cons]

theorem optionsFor_eq_of_not_digit {c : Char} (h1 : pyIsDigit c = false) :
    optionsFor c = .ok (sortedSetStr ([[c]]
      ++ (if pyIsAlpha c then [pySwapcase c] else [])
      ++ [] ++ (substitutions c).map fun r => [r])) := by
  unfold optionsFor
  rw [h1]
  rfl

theorem optionsFor_eq_of_ascii_digit {c : Char} (h1 : pyIsDigit c = true)
    (h2 : c.isDigit = true) :
    optionsFor c = .ok (sortedSetStr ([[c]]
      ++ (if pyIsAlpha c then [pySwapcase c] else [])
      ++ [[digitChar ((c.toNat - 48 + 9) % 10)], [digitChar ((c.toNat - 48 + 1) % 10)]]
      ++ (substitutions c).map fun r => [r])) := by
  unfold optionsFor pyIntOfDigit
  rw [h1, if_pos h2]
  rfl

/-- On an ASCII character the option pool always builds, contains the
character itself, and holds only one-character strings. -/
theorem optionsFor_ascii {c : Char} (hc : c.toNat < 128) :
    ∃ pool, optionsFor c = .ok pool
      ∧ [c] ∈ pool
      ∧ ∀ s ∈ pool, s.length = 1 := by
  have hss : c ≠ 'ß' := by rintro rfl; exact absurd hc (by decide)
  have hsup : c ≠ '²' := by rintro rfl; exact absurd hc (by decide)
  have halpha : ∀ s ∈ (if pyIsAlpha c then [pySwapcase c] else []), s.length = 1 := by
    intro s hs
    split_ifs at hs with h
    · rcases List.mem_singleton.mp hs with rfl
      simp only [pySwapcase, if_neg hss]
      split_ifs <;> rfl
    · simp at hs
  have hsubs : ∀ s ∈ (substitutions c).map (fun r => [r]), s.length = 1 := by
    intro s hs
    obtain ⟨r, _, rfl⟩ := List.mem_map.mp hs
    rfl
  rcases h : c.isDigit
  case false =>
    have h1 : pyIsDigit c = false := by simp [pyIsDigit, h, hsup]
    refine ⟨_, optionsFor_eq_of_not_digit h1, ?_, ?_⟩
    · rw [mem_sortedSetStr]
      simp
    · intro s hs
      rw [mem_sortedSetStr] at hs
      simp only [List.mem_append] at hs
      rcases hs with ((hs | hs) | hs) | hs
      · rcases List.mem_singleton.mp hs with rfl
        rfl
      · exact halpha s hs
      · simp at hs
      · exact hsubs s hs
  case true =>
    have h1 : pyIsDigit c = true := by simp [pyIsDigit, h]
    refine ⟨_, optionsFor_eq_of_ascii_digit h1 h, ?_, ?_⟩
    · rw [mem_sortedSetStr]
      simp
    · intro s hs
      rw [mem_sortedSetStr] at hs
      simp only [List.mem_append] at hs
      rcases hs with ((hs | hs) | hs) | hs
      · rcases List.mem_singleton.mp hs with rfl
        rfl
      · exact halpha s hs
      · rcases List.mem_cons.mp hs with rfl | hs
        · rfl
        · rcases List.mem_singleton.mp hs with rfl
          rfl
      · exact hsubs s hs

/-- The pools of an ASCII seed all build, each containing the original
character as a one-character string and nothing but one-character
strings. -/
theorem buildPools_ascii : ∀ l : List Char, (∀ c ∈ l, c.toNat < 128) →
    ∃ pools, buildPools l = .ok pools
      ∧ List.Forall₂ (fun c pool => [c] ∈ pool) l pools
      ∧ ∀ pool ∈ pools, ∀ s ∈ pool, s.length = 1 := by
  intro l
  induction l with
  | nil => intro _; exact ⟨[], rfl, List.Forall₂.nil, by simp⟩
  | cons c cs ih =>
    intro h
    obtain ⟨pool, hpool, hself, hone⟩ :=
      optionsFor_ascii (h c (List.mem_cons_self c cs))
    obtain ⟨pools, hpools, hf2, hones⟩ := ih fun d hd => h d (List.mem_cons_of_mem c hd)
    refine ⟨pool :: pools, ?_, List.Forall₂.cons hself hf2, ?_⟩
    · unfold buildPools
      rw [hpool, hpools]
      rfl
    · intro p hp
      rcases List.mem_cons.mp hp with rfl | hp
      · exact hone
      · exact hones p hp

theorem flatten_map_singleton {α : Type} : ∀ l : List α, (l.map fun c => [c]).flatten = l
  | [] => rfl
  | c :: cs => by simp [flatten_map_singleton cs]

theorem length_flatten_of_singletons : ∀ {parts : List (List Char)},
    (∀ p ∈ parts, p.length = 1) → parts.flatten.length = parts.length := by
  intro parts
  induction parts with
  | nil => intro _; rfl
  | cons p ps ih =>
    intro h
    simp only [List.flatten_cons, List.length_append, List.length_cons]
    rw [h p (List.mem_cons_self p ps), ih fun q hq => h q (List.mem_cons_of_mem p hq)]
    omega

theorem forall2_mem_length_one {l : List (List Char)} {pools : List (List (List Char))}
    (hf : List.Forall₂ (fun x pool => x ∈ pool) l pools)
    (hones : ∀ pool ∈ pools, ∀ s ∈ pool, s.length = 1) :
    ∀ s ∈ l, s.length = 1 := by
  induction hf with
  | nil => simp
  | cons hx _ ih =>
    intro s hs
    rcases List.mem_cons.mp hs with rfl | hs
    · exact hones _ (List.mem_cons_self _ _) _ hx
    · exact ih (fun p hp => hones p (List.mem_cons_of_mem _ hp)) s hs

/-! ## Duplicate freedom of the fixed character sets -/

theorem nodup_asciiLowercase : asciiLowercase.Nodup := by decide

theorem nodup_asciiUppercase : asciiUppercase.Nodup := by decide

theorem nodup_asciiDigits : asciiDigits.Nodup := by decide

theorem nodup_asciiLetters : asciiLetters.Nodup := by decide

theorem nodup_DEFAULT_CHARSET : DEFAULT_CHARSET.Nodup := by decide

theorem nodup_patternCharset {c : Char} {cs : List Char}
    (h : PATTERN_CHARSETS c = some cs) : cs.Nodup := by
  rw [PATTERN_CHARSETS] at h
  split_ifs at h <;> injection h with h <;> subst h <;>
    first
    | exact nodup_asciiUppercase
    | exact nodup_asciiLowercase
    | exact nodup_asciiDigits
    | exact nodup_asciiLetters
    | exact nodup_DEFAULT_CHARSET

theorem nodup_resolveToken (order : String) (c : Char) : (resolveToken order c).Nodup := by
  rw [resolveToken]
  rcases h : PATTERN_CHARSETS c with _ | cs
  · simp
  · have hcs := nodup_patternCharset h
    split_ifs with h1
    · exact hcs
    · exact List.nodup_reverse.mpr hcs

theorem nodup_patternPools (pattern order : String) :
    ∀ pool ∈ patternPools pattern order, pool.Nodup := by
  intro pool hp
  obtain ⟨c, _, rfl⟩ := List.mem_map.mp hp
  exact nodup_resolveToken order c

/-! ## Lemmas about the search loop -/

theorem crackStream_find_some (t : String → Bool) :
    ∀ (l seen : List String) (p : String),
      (∀ q ∈ seen, t q = false) → l.find? t = some p →
      (crackStream (liftTest t) seen l).2.2 = some (.ok (some p)) := by
  intro l
  induction l with
  | nil => intro seen p _ hf; simp at hf
  | cons q qs ih =>
    intro seen p hseen hf
    by_cases hq : q ∈ seen
    · have hqf : t q = false := hseen q hq
      rw [List.find?_cons_of_neg _ (by simp [hqf])] at hf
      simp only [crackStream, if_pos hq]
      exact ih seen p hseen hf
    · simp only [crackStream, if_neg hq, liftTest]
      cases ht : t q with
      | true =>
        rw [List.find?_cons_of_pos _ ht] at hf
        injection hf with hf
        subst hf
        rfl
      | false =>
        rw [List.find?_cons_of_neg _ (by simp [ht])] at hf
        have hseen2 : ∀ x ∈ q :: seen, t x = false := by
          intro x hx
          rcases List.mem_cons.mp hx with rfl | hx
          · exact ht
          · exact hseen x hx
        exact ih (q :: seen) p hseen2 hf

theorem crackStream_find_none (t : String → Bool) :
    ∀ (l seen : List String),
      (∀ q ∈ seen, t q = false) → l.find? t = none →
      (crackStream (liftTest t) seen l).2.2 = none
      ∧ (∀ q ∈ (crackStream (liftTest t) seen l).2.1, t q = false) := by
  intro l
  induction l with
  | nil => intro seen hseen _; exact ⟨rfl, hseen⟩
  | cons q qs ih =>
    intro seen hseen hf
    have hqf : t q = false := by
      cases ht : t q
      · rfl
      · rw [List.find?_cons_of_pos _ ht] at hf; cases hf
    rw [List.find?_cons_of_neg _ (by simp [hqf])] at hf
    by_cases hq : q ∈ seen
    · simp only [crackStream, if_pos hq]
      exact ih seen hseen hf
    · simp only [crackStream, if_neg hq, liftTest, hqf]
      have hseen2 : ∀ x ∈ q :: seen, t x = false := by
        intro x hx
        rcases List.mem_cons.mp hx with rfl | hx
        · exact hqf
        · exact hseen x hx
      exact ih (q :: seen) hseen2 hf

theorem crackStreams_find (t : String → Bool) :
    ∀ (streams : List (List String)) (seen : List String),
      (∀ q ∈ seen, t q = false) →
      (crackStreams (liftTest t) seen (streams.map .ok)).2 = .ok (streams.flatten.find? t) := by
  intro streams
  induction streams with
  | nil => intro seen _; rfl
  | cons l rest ih =>
    intro seen hseen
    rw [List.map_cons]
    simp only [crackStreams]
    rcases hr : crackStream (liftTest t) seen l with ⟨tr, seen2, res⟩
    rcases hf : l.find? t with _ | p
    · obtain ⟨h1, h2⟩ := crackStream_find_none t l seen hseen hf
      rw [hr] at h1 h2
      simp only at h1 h2
      subst h1
      simp only [List.flatten_cons, List.find?_append, hf, Option.none_or]
      exact ih seen2 h2
    · have h1 := crackStream_find_some t l seen p hseen hf
      rw [hr] at h1
      simp only at h1
      subst h1
      simp [List.find?_append, hf]

theorem crackStream_trace (test : String → Except String Bool) :
    ∀ (l seen : List String),
      (crackStream test seen l).1.Nodup
      ∧ (∀ p ∈ (crackStream test seen l).1, p ∉ seen ∧ p ∈ l)
      ∧ ((crackStream test seen l).2.2 = none →
          ∀ p, p ∈ seen ∨ p ∈ (crackStream test seen l).1 →
            p ∈ (crackStream test seen l).2.1) := by
  intro l
  induction l with
  | nil =>
    intro seen
    refine ⟨List.nodup_nil, by simp [crackStream], ?_⟩
    intro _ p hp
    simpa [crackStream] using hp
  | cons q qs ih =>
    intro seen
    by_cases hq : q ∈ seen
    · simp only [crackStream, if_pos hq]
      obtain ⟨h1, h2, h3⟩ := ih seen
      exact ⟨h1, fun p hp => ⟨(h2 p hp).1, List.mem_cons_of_mem _ (h2 p hp).2⟩, h3⟩
    · simp only [crackStream, if_neg hq]
      rcases ht : test q with e | b
      · refine ⟨by simp, ?_, by simp⟩
        intro p hp
        rcases List.mem_singleton.mp hp with rfl
        exact ⟨hq, List.mem_cons_self _ _⟩
      · cases b
        · obtain ⟨h1, h2, h3⟩ := ih (q :: seen)
          refine ⟨?_, ?_, ?_⟩
          · exact List.nodup_cons.mpr
              ⟨fun hmem => (h2 q hmem).1 (List.mem_cons_self _ _), h1⟩
          · intro p hp
            rcases List.mem_cons.mp hp with rfl | hp
            · exact ⟨hq, List.mem_cons_self _ _⟩
            · obtain ⟨hns, hin⟩ := h2 p hp
              exact ⟨fun hs => hns (List.mem_cons_of_mem _ hs), List.mem_cons_of_mem _ hin⟩
          · intro hnone p hp
            refine h3 hnone p ?_
            rcases hp with hp | hp
            · exact Or.inl (List.mem_cons_of_mem _ hp)
            · rcases List.mem_cons.mp hp with rfl | hp
              · exact Or.inl (List.mem_cons_self _ _)
              · exact Or.inr hp
        · refine ⟨by simp, ?_, by simp⟩
          intro p hp
          rcases List.mem_singleton.mp hp with rfl
          exact ⟨hq, List.mem_cons_self _ _⟩

theorem crackStreams_trace (test : String → Except String Bool) :
    ∀ (streams : List (Except String (List String))) (seen : List String),
      (crackStreams test seen streams).1.Nodup
      ∧ ∀ p ∈ (crackStreams test seen streams).1,
          p ∉ seen ∧ p ∈ (streams.map okStream).flatten := by
  intro streams
  induction streams with
  | nil => intro seen; simp [crackStreams]
  | cons s rest ih =>
    intro seen
    rcases s with e | l
    · simp [crackStreams]
    · simp only [crackStreams, List.map_cons, okStream, List.flatten_cons]
      rcases hr : crackStream test seen l with ⟨tr, seen2, res⟩
      obtain ⟨h1, h2, h3⟩ := crackStream_trace test l seen
      rw [hr] at h1 h2 h3
      simp only at h1 h2 h3
      cases res with
      | some r =>
        refine ⟨h1, ?_⟩
        intro p hp
        exact ⟨(h2 p hp).1, List.mem_append_left _ (h2 p hp).2⟩
      | none =>
        obtain ⟨g1, g2⟩ := ih seen2
        simp only
        constructor
        · rw [List.nodup_append]
          refine ⟨h1, g1, ?_⟩
          intro p hp hp2
          exact (g2 p hp2).1 (h3 rfl p (Or.inr hp))
        · intro p hp
          rcases List.mem_append.mp hp with hp | hp
          · exact ⟨(h2 p hp).1, List.mem_append_left _ (h2 p hp).2⟩
          · refine ⟨?_, List.mem_append_right _ (g2 p hp).2⟩
            intro hs
            exact (g2 p hp).1 (h3 rfl p (Or.inl hs))

theorem crackStreams_all_error (test : String → Except String Bool) (e : String)
    (h : ∀ p, test p = .error e) :
    ∀ streams : List (List String), streams.flatten ≠ [] →
      (crackStreams test [] (streams.map .ok)).2 = .error e := by
  intro streams
  induction streams with
  | nil => intro hne; simp at hne
  | cons l rest ih =>
    intro hne
    cases l with
    | nil =>
      simp only [List.map_cons, crackStreams, crackStream]
      simpa using ih (by simpa using hne)
    | cons q qs =>
      simp only [List.map_cons, crackStreams, crackStream]
      simp [h q]

theorem eq_map_ok_of_all_ok : ∀ {es : List (Except String (List String))},
    (∀ s ∈ es, isOkStream s = true) → es = (es.map okStream).map Except.ok := by
  intro es
  induction es with
  | nil => intro _; rfl
  | cons s rest ih =>
    intro h
    rcases s with e | l
    · exact absurd (h _ (List.mem_cons_self _ _)) (by simp [isOkStream])
    · simp only [List.map_cons, okStream]
      rw [← ih fun x hx => h x (List.mem_cons_of_mem _ hx)]

/-! ## Claim theorems -/

/-- Claim C1: for every configuration of strategies and every tester, the
search returns ok (some p) where p is the first candidate of the merged
stream, in the priority order seed variants, pattern expansion or length
brute force, then wordlist, for which the tester returns true; when every
tested candidate gets false and all sources are exhausted it returns
ok none, the Exhausted result. -/
theorem crack_target_first_match (a : Args) (t : String → Bool)
    (h : ∀ s ∈ buildStreams a, isOkStream s = true) :
    crack_target a (liftTest t) = .ok ((mergedCandidates a).find? t) :=
  calc (crackStreams (liftTest t) [] (buildStreams a)).2
      = (crackStreams (liftTest t) [] (((buildStreams a).map okStream).map .ok)).2 := by
        rw [← eq_map_ok_of_all_ok h]
    _ = .ok ((((buildStreams a).map okStream).flatten).find? t) :=
        crackStreams_find t _ [] (by simp)

/-- Witness for C1 at a wordlist-only configuration whose tester accepts
the second candidate. -/
theorem crack_target_first_match_witness :
    (∀ s ∈ buildStreams ⟨none, none, "", "", "asc", none, [], some ["alpha", "beta"], 250000, 1000⟩,
      isOkStream s = true)
    ∧ crack_target ⟨none, none, "", "", "asc", none, [], some ["alpha", "beta"], 250000, 1000⟩
        (liftTest fun s => s == "beta")
      = .ok ((mergedCandidates
          ⟨none, none, "", "", "asc", none, [], some ["alpha", "beta"], 250000, 1000⟩).find?
            fun s => s == "beta") :=
  ⟨by decide, crack_target_first_match _ _ (by decide)⟩

/-- Claim C2: within one run the candidates handed to the tester are
pairwise distinct, the deduplication set being shared across all sources,
and every tested candidate comes from the merged stream. -/
theorem crack_target_dedup (a : Args) (test : String → Except String Bool) :
    (testedCandidates a test).Nodup
    ∧ ∀ p ∈ testedCandidates a test, p ∈ mergedCandidates a := by
  obtain ⟨h1, h2⟩ := crackStreams_trace test (buildStreams a) []
  exact ⟨h1, fun p hp => (h2 p hp).2⟩

/-- Witness for C2 at a configuration whose seed variants and wordlist
both produce the candidate "a". -/
theorem crack_target_dedup_witness :
    (testedCandidates ⟨some "a", none, "", "", "asc", none, [], some ["a"], 250000, 1000⟩
      (liftTest fun _ => false)).Nodup
    ∧ "a" ∈ mergedCandidates ⟨some "a", none, "", "", "asc", none, [], some ["a"], 250000, 1000⟩ :=
  ⟨(crack_target_dedup _ (liftTest fun _ => false)).1,
    (crack_target_dedup ⟨some "a", none, "", "", "asc", none, [], some ["a"], 250000, 1000⟩
      (liftTest fun _ => false)).2 "a" (by decide)⟩

/-- Counterexample to C3: with length 3 and an empty charset the search
reports no configuration error at all; it runs to completion, tests
nothing, and returns the Exhausted result exactly as if a real candidate
space had been exhausted. -/
theorem config_error_counterexample :
    crack_target (lengthOnlyArgs 3 []) (liftTest fun _ => true) = .ok none
    ∧ testedCandidates (lengthOnlyArgs 3 []) (liftTest fun _ => true) = [] :=
  ⟨rfl, rfl⟩

/-- Amended C3: a negative length is reported as an error (the ValueError
of itertools.product, surfacing when the length stream is pulled) rather
than yielding an empty search, but an empty charset with positive length
is not reported: the length strategy silently becomes empty and the
search returns the Exhausted result. -/
theorem buildStreams_lengthOnly (len : Int) (cs : List Char) (h : len ≠ 0) :
    buildStreams (lengthOnlyArgs len cs)
      = [(generate_by_length_checked len cs).map fun g => limited g (some 250000)] := by
  unfold buildStreams lengthOnlyArgs patternActive patternSpec
  simp [strTruthy, intTruthy, h]

theorem config_error_amended (len : Int) (hneg : len < 0) (cs : List Char)
    (n : Int) (hn : 0 < n) (t : String → Bool) :
    crack_target (lengthOnlyArgs len cs) (liftTest t)
      = .error "repeat argument cannot be negative"
    ∧ crack_target (lengthOnlyArgs n []) (liftTest t) = .ok none := by
  constructor
  · unfold crack_target
    rw [buildStreams_lengthOnly len cs (by omega)]
    rw [generate_by_length_checked, if_pos hneg]
    rfl
  · obtain ⟨k, hk⟩ : ∃ k, n.toNat = k + 1 := ⟨n.toNat - 1, by omega⟩
    unfold crack_target
    rw [buildStreams_lengthOnly n [] (by omega)]
    rw [generate_by_length_checked, if_neg (by omega)]
    have hempty : generate_by_length n.toNat [] = [] := by
      rw [hk]
      simp [generate_by_length, List.replicate_succ, listProd]
    rw [hempty]
    rfl

/-- Witness for the amended C3 at length -1 and at length 1 with an empty
charset. -/
theorem config_error_amended_witness :
    ((-1 : Int) < 0 ∧ (0 : Int) < 1)
    ∧ crack_target (lengthOnlyArgs (-1) ['a']) (liftTest fun _ => false)
        = .error "repeat argument cannot be negative"
    ∧ crack_target (lengthOnlyArgs 1 []) (liftTest fun _ => false) = .ok none :=
  ⟨⟨by decide, by decide⟩,
    (config_error_amended (-1) (by decide) ['a'] 1 (by decide) (fun _ => false)).1,
    (config_error_amended (-1) (by decide) ['a'] 1 (by decide) (fun _ => false)).2⟩

/-- Claim C4: with the rarfile module missing the RAR tester raises
instead of answering false, likewise when the unrar executable cannot be
run, and the raised error propagates unchanged through the search loop:
the whole search aborts with it instead of treating it as a wrong
password. -/
theorem rar_tool_missing_aborts (archive : String → RarOutcome)
    (streams : List (List String)) (p : String) (hp : p ∈ streams.flatten) :
    (∀ q, try_rar_password false archive q
      = .error "rarfile dependency missing. Install via pip.")
    ∧ (∀ q, archive q = .cannotExec →
        try_rar_password true archive q
          = .error "rarfile requires unrar or rar command to be installed.")
    ∧ (crackStreams (try_rar_password false archive) [] (streams.map .ok)).2
        = .error "rarfile dependency missing. Install via pip." := by
  refine ⟨fun q => rfl, ?_, ?_⟩
  · intro q hq
    unfold try_rar_password
    rw [hq]
    rfl
  · refine crackStreams_all_error _ _ (fun q => rfl) streams ?_
    intro h
    rw [h] at hp
    simp at hp

/-- Witness for C4 on a one-candidate stream. -/
theorem rar_tool_missing_aborts_witness :
    ("pw" ∈ ([["pw"]] : List (List String)).flatten)
    ∧ (crackStreams (try_rar_password false fun _ => .wrongPassword) []
        ([["pw"]].map .ok)).2
      = .error "rarfile dependency missing. Install via pip." :=
  ⟨by decide,
    (rar_tool_missing_aborts (fun _ => .wrongPassword) [["pw"]] "pw" (by decide)).2.2⟩

/-- Claim C5: pattern expansion yields exactly the product of the resolved
token set sizes, every candidate has one character per token, and no
candidate repeats. -/
theorem pattern_expansion_counts (pattern order : String) :
    (generate_from_pattern pattern order).length
      = ((patternPools pattern order).map List.length).prod
    ∧ (∀ v ∈ generate_from_pattern pattern order, v.length = pattern.length)
    ∧ (generate_from_pattern pattern order).Nodup := by
  refine ⟨?_, ?_, ?_⟩
  · unfold generate_from_pattern
    rw [List.length_map, length_listProd]
  · intro v hv
    obtain ⟨l, hl, rfl⟩ := List.mem_map.mp hv
    rw [length_stringMk, length_of_mem_listProd hl, patternPools, List.length_map]
    rfl
  · exact (nodup_listProd (nodup_patternPools pattern order)).map stringMk_injective

/-- Witness for C5 at pattern "A1" in ascending order. -/
theorem pattern_expansion_counts_witness :
    ("A0" ∈ generate_from_pattern "A1" "asc")
    ∧ (generate_from_pattern "A1" "asc").length
        = ((patternPools "A1" "asc").map List.length).prod
    ∧ String.length "A0" = String.length "A1" :=
  ⟨by decide, (pattern_expansion_counts "A1" "asc").1,
    (pattern_expansion_counts "A1" "asc").2.1 "A0" (by decide)⟩

/-- Claim C6: expanding in descending order is expanding with every
symbolic token set reversed and every literal untouched, and the first
ascending and first descending candidates of pattern "A1" are the
per-token mirror images "A0" and "Z9". -/
theorem descending_reverses_symbolic_tokens :
    (∀ p : String, generate_from_pattern p "desc"
        = (listProd (p.data.map reverseSymbolic)).map String.mk)
    ∧ (generate_from_pattern "A1" "asc").head? = some "A0"
    ∧ (generate_from_pattern "A1" "desc").head? = some "Z9" := by
  refine ⟨?_, rfl, rfl⟩
  intro p
  unfold generate_from_pattern patternPools
  have hmap : p.data.map (resolveToken "desc") = p.data.map reverseSymbolic := by
    apply List.map_congr_left
    intro c _
    unfold resolveToken reverseSymbolic
    cases hc : PATTERN_CHARSETS c with
    | none => rfl
    | some cs => simp
  rw [hmap]

/-- Claim C7: fixed-length brute force yields exactly the strings of the
given length over the charset, without duplicates, in the lexicographic
order induced by the charset order; length 0 yields only the empty
string; an empty charset with positive length yields nothing; length 2
over "ab" yields exactly aa, ab, ba, bb in that order. -/
theorem brute_force_enumeration (n : Nat) (cs : List Char) (hnd : cs.Nodup) :
    (∀ s : String, s ∈ generate_by_length n cs ↔ s.length = n ∧ ∀ c ∈ s.data, c ∈ cs)
    ∧ (generate_by_length n cs).Nodup
    ∧ (∀ r : Char → Char → Prop, cs.Pairwise r →
        (generate_by_length n cs).Pairwise fun u v => List.Lex r u.data v.data)
    ∧ generate_by_length 0 cs = [""]
    ∧ (cs = [] → 0 < n → generate_by_length n cs = [])
    ∧ generate_by_length 2 ['a', 'b'] = ["aa", "ab", "ba", "bb"] := by
  refine ⟨?_, ?_, ?_, rfl, ?_, by decide⟩
  · intro s
    constructor
    · intro hs
      obtain ⟨l, hl, rfl⟩ := List.mem_map.mp hs
      exact mem_listProd_replicate.mp hl
    · rintro ⟨h1, h2⟩
      exact List.mem_map.mpr ⟨s.data, mem_listProd_replicate.mpr ⟨h1, h2⟩, stringMk_data s⟩
  · refine (nodup_listProd ?_).map stringMk_injective
    intro pool hp
    rw [List.eq_of_mem_replicate hp]
    exact hnd
  · intro r hr
    unfold generate_by_length
    rw [List.pairwise_map]
    refine (pairwise_listProd ?_).imp fun h => h
    intro pool hp
    rw [List.eq_of_mem_replicate hp]
    exact hr
  · intro hcs hn
    subst hcs
    obtain ⟨k, hk⟩ : ∃ k, n = k + 1 := ⟨n - 1, by omega⟩
    subst hk
    simp [generate_by_length, List.replicate_succ, listProd]

/-- Witness for C7 at length 2 over the charset "ab". -/
theorem brute_force_enumeration_witness :
    (['a', 'b'] : List Char).Nodup
    ∧ generate_by_length 2 ['a', 'b'] = ["aa", "ab", "ba", "bb"]
    ∧ (String.length "ab" = 2 ∧ ∀ c ∈ "ab".data, c ∈ (['a', 'b'] : List Char))
    ∧ (generate_by_length 2 ['a', 'b']).Pairwise fun u v => List.Lex (· < ·) u.data v.data :=
  ⟨by decide,
    (brute_force_enumeration 2 ['a', 'b'] (by decide)).2.2.2.2.2,
    ((brute_force_enumeration 2 ['a', 'b'] (by decide)).1 "ab").mp (by decide),
    (brute_force_enumeration 2 ['a', 'b'] (by decide)).2.2.1 (· < ·) (by decide)⟩

/-- Claim C8: a capped source contributes exactly its first
min(cap, total) candidates to the merged stream, an uncapped source
contributes everything, and each source contribution is independent of
the surrounding sources and their caps. -/
theorem per_source_caps (src : List String) (m : Int) :
    limited src (some m) = src.take m.toNat
    ∧ (limited src (some m)).length = min m.toNat src.length
    ∧ (∀ l : List String, limited l none = l)
    ∧ ∀ pre post cap, mergeStreams (pre ++ (src, cap) :: post)
        = mergeStreams pre ++ limited src cap ++ mergeStreams post := by
  refine ⟨rfl, ?_, fun l => rfl, ?_⟩
  · simp [limited, List.length_take]
  · intro pre post cap
    simp [mergeStreams, List.map_append, List.flatten_append]

/-- Counterexample to C9: Python swapcase expands the sharp s letter to
the two-character string SS, so the seed-variant generator on the
one-character seed sharp-s yields the candidate SS of length 2, refuting
the claim that every candidate has exactly the seed length. -/
theorem seed_variants_length_counterexample :
    candidate_variants "ß" = .ok ["SS", "ß"]
    ∧ String.length "SS" ≠ String.length "ß" :=
  ⟨rfl, by decide⟩

/-- Amended C9: over seeds made of ASCII characters the generator
succeeds, its uncapped output contains the seed itself, and every
candidate has exactly the seed length.  Beyond ASCII this fails: Python
swapcase can expand one character to several, as the sharp s
counterexample shows, and int raises ValueError on non-decimal digit
characters such as the superscript two. -/
theorem seed_variants_contain_seed_ascii (seed : String)
    (h : ∀ c ∈ seed.data, c.toNat < 128) :
    ∃ vs, candidate_variants seed = .ok vs
      ∧ seed ∈ vs
      ∧ ∀ v ∈ vs, v.length = seed.length := by
  obtain ⟨pools, hpools, hf2, hones⟩ := buildPools_ascii seed.data h
  refine ⟨(listProd pools).map fun combo => String.mk combo.flatten, ?_, ?_, ?_⟩
  · unfold candidate_variants
    rw [hpools]
    rfl
  · refine List.mem_map.mpr ⟨seed.data.map fun c => [c], ?_, ?_⟩
    · exact mem_listProd_of_forall2 (List.forall₂_map_left_iff.mpr hf2)
    · rw [flatten_map_singleton]
  · intro v hv
    obtain ⟨combo, hcombo, rfl⟩ := List.mem_map.mp hv
    have hc1 : ∀ s ∈ combo, s.length = 1 :=
      forall2_mem_length_one (forall2_of_mem_listProd hcombo) hones
    rw [length_stringMk, length_flatten_of_singletons hc1,
      length_of_mem_listProd hcombo, ← hf2.length_eq]
    rfl

/-- Witness for the amended C9 at the ASCII seed "aB3". -/
theorem seed_variants_contain_seed_witness :
    (∀ c ∈ "aB3".data, c.toNat < 128)
    ∧ ∃ vs, candidate_variants "aB3" = .ok vs
        ∧ "aB3" ∈ vs
        ∧ ∀ v ∈ vs, v.length = "aB3".length :=
  ⟨by decide, seed_variants_contain_seed_ascii "aB3" (by decide)⟩

/-- Claim C10: with no forced type the inferred type is the map entry of
the lowered extension for the five known extensions, and every unknown
extension silently defaults to pdf. -/
theorem extension_type_inference (s : String)
    (h : TARGET_TYPE_MAP.lookup (lowerStr s) = none) :
    determine_target_type s none = "pdf"
    ∧ determine_target_type ".PDF" none = "pdf"
    ∧ determine_target_type ".Zip" none = "zip"
    ∧ determine_target_type ".RAR" none = "rar"
    ∧ determine_target_type ".7z" none = "7z"
    ∧ determine_target_type ".IsO" none = "iso" := by
  refine ⟨?_, by decide, by decide, by decide, by decide, by decide⟩
  simp [determine_target_type, h]

/-- Witness for C10 at the unknown extension ".txt". -/
theorem extension_type_inference_witness :
    TARGET_TYPE_MAP.lookup (lowerStr ".txt") = none
    ∧ determine_target_type ".txt" none = "pdf" :=
  ⟨by decide, (extension_type_inference ".txt" (by decide)).1⟩

end PasswordCracker
